import Mathlib

/-!
# Verification of the `MemoryManager` allocator

Shallow embedding of `src/MemoryManager/MemoryManager.{h,cpp}`: a fixed-size
simulated memory arena managed through an ordered block list (`listNodes`),
an offset-to-position index (`indexToNodeMap`, a `std::map<int,int>`), and
pluggable fit strategies (`bestFit`).

Modelling conventions:
* C++ `int` is modelled as `Int` and `size_t` word counts as `Nat`.  The
  operations are exercised only with word counts that fit comfortably in
  `int` (the arena itself is capped at 65536 words), so no 32-bit wrapping
  arises in the modelled domain; theorems that quantify over allocation
  requests carry an explicit bound making that domain visible.
* `std::map<int,int>` is modelled as an association list sorted strictly by
  key (`IndexMap`).  Iterating from `find(k)` to `end()` in the C++ code
  visits exactly the entries with key `≥ k` (none when `k` is absent), which
  is how the loops of `splitNode` and `mergeHoles` are rendered.
* A `std::vector` subscript outside the vector's bounds is undefined
  behaviour; every state-mutating operation therefore returns an `Option`,
  with `none` marking exactly the executions in which the C++ code indexes
  past the end of `listNodes` (or dereferences the null hole list).  The
  fit-strategy scan of `bestFit` also returns an `Option`: its wrapping
  `uint16_t` loop counter never terminates on inventories of 32768 or more
  holes, and `none` marks that hang.
* Pointers are modelled as byte offsets from `memoryBlock.data()`; the
  backing store's contents are never consulted by the code under claim, so
  only its element count is tracked.
-/

/-- The linked-list node of `MemoryManager.h` (lines 22–34): field order and
types follow the C++ struct (`int size; int headIndex; bool isHole`). -/
structure listNode where
  size : Int
  headIndex : Int
  isHole : Bool
deriving DecidableEq, Repr

/-- The C++ constructor `listNode(headIndex, size, isHole)` — note the
argument order differs from the field order. -/
def listNode.make (headIndex size : Int) (isHole : Bool) : listNode :=
  ⟨size, headIndex, isHole⟩

/-- Default node used for the (guarded) `getD` list reads; every read in the
model is protected by the same bounds condition the C++ subscript needs. -/
def dNode : listNode := ⟨0, 0, true⟩

instance : Inhabited listNode := ⟨dNode⟩

/-- `std::map<int,int>`: an association list sorted strictly by key. -/
abbrev IndexMap := List (Int × Int)

/-- Key lookup (`std::map::find`). -/
def mapFind : IndexMap → Int → Option Int
  | [], _ => none
  | (k, v) :: rest, key => if key = k then some v else mapFind rest key

/-- `std::map::count` for a unique-key map: 1 if present, 0 otherwise. -/
def mapCount (m : IndexMap) (k : Int) : Nat :=
  if (mapFind m k).isSome then 1 else 0

/-- `map[k]` read after a presence check (`operator[]` on a present key). -/
def mapGetD (m : IndexMap) (k d : Int) : Int :=
  (mapFind m k).getD d

/-- `map[k] = v` (`operator[]` assignment): insert or overwrite, keeping the
list sorted by key. -/
def mapSet : IndexMap → Int → Int → IndexMap
  | [], k, v => [(k, v)]
  | (k1, v1) :: rest, k, v =>
    if k < k1 then (k, v) :: (k1, v1) :: rest
    else if k = k1 then (k, v) :: rest
    else (k1, v1) :: mapSet rest k v

/-- `std::map::erase` by key. -/
def mapErase : IndexMap → Int → IndexMap
  | [], _ => []
  | (k1, v1) :: rest, k => if k = k1 then rest else (k1, v1) :: mapErase rest k

/-- The `splitNode` re-sync loop (MemoryManager.cpp lines 145–156): iterate
from `find(k)` to `end()`, skipping the entry at `k` itself, adding `d` to
every later value.  When `k` is absent the loop body never runs. -/
def mapAddAfter (m : IndexMap) (k d : Int) : IndexMap :=
  if (mapFind m k).isSome then
    m.map (fun p => if k < p.1 then (p.1, p.2 + d) else p)
  else m

/-- The right-merge loop of `mergeHoles` (lines 196–199): iterate from
`find(k)` to `end()` adding `d` to every value, the entry at `k` included. -/
def mapAddFrom (m : IndexMap) (k d : Int) : IndexMap :=
  if (mapFind m k).isSome then
    m.map (fun p => if k ≤ p.1 then (p.1, p.2 + d) else p)
  else m

/-- The `MemoryManager` object state (MemoryManager.h lines 43–85):
`listNodes`, `indexToNodeMap`, the construction-time `wordSize`, the byte
limit `memLimit` and the element count of the `memoryBlock` vector. -/
structure MemoryManager where
  listNodes : List listNode
  indexToNodeMap : IndexMap
  wordSize : Nat
  memLimit : Nat
  memoryBlockLen : Nat
deriving DecidableEq, Repr

namespace MemoryManager

/-- The constructor (lines 57–61): it sets only the allocator (passed
separately to `allocate` below, mirroring the `algorithmType` field) and
`wordSize`; the containers start empty. -/
def new (wordSize : Nat) : MemoryManager :=
  { listNodes := [], indexToNodeMap := [], wordSize := wordSize
    memLimit := 0, memoryBlockLen := 0 }

/-- `MemoryManager::initialize` (lines 75–86).  When the request is within
the 65536-word ceiling it recomputes `memLimit`, replaces the backing
vector, assigns `indexToNodeMap[0] = 0` and `push_back`s one spanning hole.
Nothing is cleared first: on a second call the old nodes and map entries
survive, and the new hole is appended after them. -/
def init (s : MemoryManager) (sizeInWords : Nat) : MemoryManager :=
  if sizeInWords ≤ 65536 then
    { s with
      memLimit := s.wordSize * sizeInWords
      memoryBlockLen := s.wordSize * sizeInWords
      indexToNodeMap := mapSet s.indexToNodeMap 0 0
      listNodes := s.listNodes ++ [listNode.make 0 (sizeInWords : Int) true] }
  else s

/-- `MemoryManager::shutdown` (lines 91–97): clears the three containers
(`memLimit` itself is left untouched). -/
def shutdown (s : MemoryManager) : MemoryManager :=
  { s with listNodes := [], indexToNodeMap := [], memoryBlockLen := 0 }

/-- `MemoryManager::getList` (lines 257–288) viewed through the allocator:
the `(offset, length)` pairs of all holes in list order, each component cast
to `uint16_t` (i.e. reduced mod 2^16).  The leading count word is implicit
(it equals the number of pairs for these well-formed inventories); the
modelled `bestFit` accounts for the count separately through its
termination guard. -/
def getList (s : MemoryManager) : List (Nat × Nat) :=
  (s.listNodes.filter (·.isHole)).map
    (fun nd => ((nd.headIndex.emod 65536).toNat, (nd.size.emod 65536).toNat))

/-- `MemoryManager::splitNode` (lines 130–157).  Inserts the allocated node
at `nodeIndex`, shifts the shrunk hole to `nodeIndex + 1`, reassigns the two
map entries, then increments the map value of every key strictly after the
remainder's offset.  Callers establish `nodeIndex < listNodes.length`, which
makes every subscript in the body in bounds. -/
def splitNode (s : MemoryManager) (nodeIndex : Nat) (availableHole : Int)
    (sizeInWords : Nat) : MemoryManager :=
  let h := (s.listNodes.getD nodeIndex dNode).headIndex
  let usedNode := listNode.make h (sizeInWords : Int) false
  let l1 := s.listNodes.insertIdx nodeIndex usedNode
  let after := l1.getD (nodeIndex + 1) dNode
  let l2 := l1.set (nodeIndex + 1)
    { after with headIndex := after.headIndex + (sizeInWords : Int)
                 size := after.size - (sizeInWords : Int) }
  let m1 := mapSet s.indexToNodeMap (l2.getD nodeIndex dNode).headIndex
    (nodeIndex : Int)
  let m2 := mapSet m1 (l2.getD (nodeIndex + 1) dNode).headIndex
    ((nodeIndex : Int) + 1)
  let m3 := mapAddAfter m2 (l2.getD (nodeIndex + 1) dNode).headIndex 1
  { s with listNodes := l2, indexToNodeMap := m3 }

/-- The `else if` half of `MemoryManager::mergeHoles` (lines 193–203).  The
C++ guard is `listNodes.size() > nodePosition`; when it passes the code
reads `listNodes[nodePosition + 1]`, which is out of bounds — `none` —
whenever `nodePosition` is the last position.  On a right-neighbour hole it
decrements every map value from the neighbour's key on, erases that key,
grows the current node and erases the neighbour from the list. -/
def mergeRightPhase (s : MemoryManager) (pos : Nat) : Option MemoryManager :=
  if pos < s.listNodes.length then
    if pos + 1 < s.listNodes.length then
      if (s.listNodes.getD (pos + 1) dNode).isHole then
        some { s with
          indexToNodeMap :=
            mapErase
              (mapAddFrom s.indexToNodeMap (s.listNodes.getD (pos + 1) dNode).headIndex (-1))
              (s.listNodes.getD (pos + 1) dNode).headIndex
          listNodes := (s.listNodes.set pos
            { s.listNodes.getD pos dNode with
                size := (s.listNodes.getD pos dNode).size
                  + (s.listNodes.getD (pos + 1) dNode).size }).eraseIdx (pos + 1) }
      else some s
    else none
  else some s

/-- `MemoryManager::mergeHoles` (lines 182–204).  Left neighbour first: if
it is a hole the freed node is absorbed into it — the map entry for the
freed offset is erased but **no later map value is shifted down** — and the
function returns.  Only otherwise is the right neighbour examined, through
`mergeRightPhase` above.  `none` marks the executions in which the C++ code
subscripts `listNodes` out of bounds. -/
def mergeHoles (s : MemoryManager) (pos : Nat) : Option MemoryManager :=
  if 0 < pos then
    if pos - 1 < s.listNodes.length then
      if (s.listNodes.getD (pos - 1) dNode).isHole then
        if pos < s.listNodes.length then
          some { s with
            indexToNodeMap :=
              mapErase s.indexToNodeMap (s.listNodes.getD pos dNode).headIndex
            listNodes := (s.listNodes.set (pos - 1)
              { s.listNodes.getD (pos - 1) dNode with
                  size := (s.listNodes.getD (pos - 1) dNode).size
                    + (s.listNodes.getD pos dNode).size }).eraseIdx pos }
        else none
      else mergeRightPhase s pos
    else none
  else mergeRightPhase s pos

/-- `MemoryManager::free` (lines 162–179).  The argument is the pointer
expressed as its offset in `uint64_t` slots from `memoryBlock.data()` (the
subtraction on line 165).  Unknown offsets return immediately; otherwise the
mapped position is marked a hole and `mergeHoles` runs.  A stale map value
that no longer lies inside the list makes the C++ write
`listNodes[nodePosition].isHole = true` out of bounds: `none`. -/
def free (s : MemoryManager) (wordOffset : Int) : Option MemoryManager :=
  if mapCount s.indexToNodeMap wordOffset = 0 then some s
  else
    if 0 ≤ mapGetD s.indexToNodeMap wordOffset 0 ∧
        (mapGetD s.indexToNodeMap wordOffset 0).toNat < s.listNodes.length then
      mergeHoles
        { s with listNodes := (s.listNodes.set (mapGetD s.indexToNodeMap wordOffset 0).toNat
            { s.listNodes.getD (mapGetD s.indexToNodeMap wordOffset 0).toNat dNode with
                isHole := true }) }
        (mapGetD s.indexToNodeMap wordOffset 0).toNat
    else none

end MemoryManager

/-- The result of `MemoryManager::allocate`: the null pointer, or a pointer
at the given byte offset from `memoryBlock.data()`. -/
inductive PtrResult where
  | null : PtrResult
  | ptr (byteOffset : Nat) : PtrResult
deriving DecidableEq, Repr

namespace MemoryManager

/-- `MemoryManager::allocate` (lines 102–127), taking the request already
converted to words (line 104) and the active fit strategy `alg`
(`algorithmType`).  A strategy returns `Option Int`: `none` marks a strategy
call that never returns (the wrapping-counter hang of `bestFit`/`worstFit`
on inventories of 32768 or more holes), in which case `allocate` itself
never returns.  With an empty list `getList` returns a null pointer that
the strategy dereferences: also `none`.  A `-1` or untracked strategy answer
yields the null pointer with no state change.  Otherwise the mapped node is
split (size mismatch) or converted wholesale, and the returned pointer is
`memoryBlock.data() + availableHole` — `uint64_t` arithmetic, hence byte
offset `8 * availableHole` regardless of `wordSize`. -/
def allocate (alg : Int → List (Nat × Nat) → Option Int) (s : MemoryManager)
    (sizeInWords : Nat) : Option (PtrResult × MemoryManager) :=
  if s.listNodes.isEmpty then none
  else
    match alg (sizeInWords : Int) (getList s) with
    | none => none
    | some availableHole =>
      if availableHole = -1 ∨ mapCount s.indexToNodeMap availableHole = 0 then
        some (PtrResult.null, s)
      else
        if 0 ≤ mapGetD s.indexToNodeMap availableHole 0 ∧
            (mapGetD s.indexToNodeMap availableHole 0).toNat < s.listNodes.length then
          if (s.listNodes.getD (mapGetD s.indexToNodeMap availableHole 0).toNat
                dNode).size ≠ (sizeInWords : Int) then
            some (PtrResult.ptr (8 * availableHole.toNat),
                  splitNode s (mapGetD s.indexToNodeMap availableHole 0).toNat
                    availableHole sizeInWords)
          else
            some (PtrResult.ptr (8 * availableHole.toNat),
                  { s with listNodes := (s.listNodes.set
                      (mapGetD s.indexToNodeMap availableHole 0).toNat
                      { s.listNodes.getD (mapGetD s.indexToNodeMap availableHole 0).toNat
                          dNode with isHole := false }) })
        else none

/-- `MemoryManager::getBitmap` (lines 294–345).  One bit per word in list
order (`1` = allocated), packed 8 to a byte with the lowest-offset word in
the least significant bit of the earliest payload byte; preceded by two
bytes holding, respectively, the low and the high nibble of
`bitset<8>(sizeMap)`, i.e. of the payload byte count reduced mod 256. -/
def getBitmap (s : MemoryManager) : List Nat :=
  let wordBits := (s.listNodes.map
    (fun nd => List.replicate nd.size.toNat (!nd.isHole))).flatten
  let sizeMap := (wordBits.length + 8 - 1) / 8
  (sizeMap % 256) % 16 :: (sizeMap % 256) / 16 :: packBytes wordBits
where
  /-- Split the word-bit stream into bytes of eight bits each (the last one
  possibly shorter), least significant bit first, mirroring the
  right-to-left chunking of `binaryStr` followed by
  `bitset<8>(chunk).to_ullong()`. -/
  packBytes : List Bool → List Nat
    | [] => []
    | b0 :: b1 :: b2 :: b3 :: b4 :: b5 :: b6 :: b7 :: rest =>
      lsbVal [b0, b1, b2, b3, b4, b5, b6, b7] :: packBytes rest
    | l => [lsbVal l]
  /-- Value of a bit list read least-significant-bit first. -/
  lsbVal : List Bool → Nat
    | [] => 0
    | b :: rest => (if b then 1 else 0) + 2 * lsbVal rest

end MemoryManager

/-- `bestFit`'s scan state (MemoryManager.cpp lines 10–26): current best
offset (initially `-1`) and running minimum (initially 65536), updated on
`length ≥ request && length < max`. -/
def bestFitGo (n : Int) : List (Nat × Nat) → Int → Int → Int
  | [], off, _ => off
  | p :: rest, off, mx =>
    if n ≤ (p.2 : Int) ∧ (p.2 : Int) < mx then bestFitGo n rest (p.1 : Int) (p.2 : Int)
    else bestFitGo n rest off mx

/-- `bestFit` (lines 10–26).  The loop is
`for (uint16_t i = 1; i < (holeListLength)*2; i += 2)`: the wrapping 16-bit
counter `i` (at most 65535) is compared against the bound
`holeListLength * 2` computed in `int`.  For a well-formed inventory of
32768 or more holes the bound is at least 65536, the condition is always
true, and the scan never returns — modelled as `none`.  For fewer holes the
loop visits exactly the `(offset, length)` pairs in order and returns the
offset of the qualifying hole with the smallest length (first one on ties),
or `-1` when none qualifies. -/
def bestFit (n : Int) (holes : List (Nat × Nat)) : Option Int :=
  if 2 * holes.length < 65536 then some (bestFitGo n holes (-1) 65536) else none

/-- The operations a client can perform after construction; `alloc` carries
the request already converted to words. -/
inductive Op where
  | init (sizeInWords : Nat) : Op
  | alloc (sizeInWords : Nat) : Op
  | free (wordOffset : Int) : Op
  | shutdown : Op
deriving DecidableEq, Repr

/-- One API call against the state; `none` propagates an execution in which
the C++ code indexes out of bounds or a strategy scan never returns. -/
def step (alg : Int → List (Nat × Nat) → Option Int) (s : MemoryManager) :
    Op → Option MemoryManager
  | Op.init n => some (MemoryManager.init s n)
  | Op.alloc n => (MemoryManager.allocate alg s n).map Prod.snd
  | Op.free o => MemoryManager.free s o
  | Op.shutdown => some (MemoryManager.shutdown s)

/-- Run a call sequence left to right. -/
def run (alg : Int → List (Nat × Nat) → Option Int) (s : MemoryManager) :
    List Op → Option MemoryManager
  | [] => some s
  | op :: rest =>
    match step alg s op with
    | none => none
    | some s1 => run alg s1 rest

/-- Sum of the `size` fields of the block list. -/
def sumSizes (l : List listNode) : Int :=
  (l.map (·.size)).sum

/-- The Address-Index invariant of the spec: every block's offset is a key
of the map and maps to the block's current position. -/
def indexSynced (s : MemoryManager) : Bool :=
  (List.range s.listNodes.length).all
    (fun i => mapFind s.indexToNodeMap ((s.listNodes.getD i dNode).headIndex) == some (i : Int))

/-- Call sequences made of allocation and deallocation only, with requests
kept within the arena's own 65536-word scale — on that domain the C++ `int`
and `size_t` arithmetic is exact and the `Int` model is faithful. -/
def validAllocFree : Op → Bool
  | Op.alloc n => n ≤ 65536
  | Op.free _ => true
  | _ => false

/-- The meaning of `bestFit`'s scan state `(off, mx)` after the prefix `pre`
has been examined: either nothing qualified yet (state still at `(-1,
65536)`) or some pair `p` of `pre` is the current best — qualifying, below
the 16-bit bound, of minimal length among the qualifying pairs of `pre`,
and strictly smaller than every qualifying pair before it. -/
def FitAcc (n : Int) (pre : List (Nat × Nat)) (off mx : Int) : Prop :=
  (off = -1 ∧ mx = 65536 ∧ ∀ q ∈ pre, (q.2 : Int) < n) ∨
  (∃ l₁ p l₂, pre = l₁ ++ p :: l₂ ∧ off = (p.1 : Int) ∧ mx = (p.2 : Int) ∧
    n ≤ (p.2 : Int) ∧ (p.2 : Int) < 65536 ∧
    (∀ q ∈ pre, n ≤ (q.2 : Int) → p.2 ≤ q.2) ∧
    (∀ q ∈ l₁, n ≤ (q.2 : Int) → p.2 < q.2))

section ListLemmas

lemma sumSizes_cons (a : listNode) (l : List listNode) :
    sumSizes (a :: l) = a.size + sumSizes l := by
  simp [sumSizes]

lemma sumSizes_set (l : List listNode) (i : Nat) (nd : listNode) (h : i < l.length) :
    sumSizes (l.set i nd) = sumSizes l - (l.getD i dNode).size + nd.size := by
  induction l generalizing i with
  | nil => simp at h
  | cons a t ih =>
    cases i with
    | zero => simp [sumSizes_cons]; ring
    | succ j =>
      simp only [List.set_cons_succ, List.getD_cons_succ, sumSizes_cons]
      rw [ih j (by simpa using h)]
      ring

lemma sumSizes_eraseIdx (l : List listNode) (i : Nat) (h : i < l.length) :
    sumSizes (l.eraseIdx i) = sumSizes l - (l.getD i dNode).size := by
  induction l generalizing i with
  | nil => simp at h
  | cons a t ih =>
    cases i with
    | zero => simp [sumSizes_cons]
    | succ j =>
      simp only [List.eraseIdx_cons_succ, List.getD_cons_succ, sumSizes_cons]
      rw [ih j (by simpa using h)]
      ring

lemma sumSizes_insertIdx (l : List listNode) (i : Nat) (nd : listNode) (h : i ≤ l.length) :
    sumSizes (l.insertIdx i nd) = sumSizes l + nd.size := by
  induction l generalizing i with
  | nil =>
    have : i = 0 := by simpa using h
    subst this
    simp [sumSizes]
  | cons a t ih =>
    cases i with
    | zero => simp [sumSizes_cons]; ring
    | succ j =>
      simp only [List.insertIdx_succ_cons, sumSizes_cons]
      rw [ih j (by simpa using h)]
      ring

lemma getD_set_ne {α : Type} (l : List α) (i j : Nat) (a d : α) (hij : i ≠ j) :
    (l.set i a).getD j d = l.getD j d := by
  induction l generalizing i j with
  | nil => simp
  | cons b t ih =>
    cases i with
    | zero =>
      cases j with
      | zero => exact absurd rfl hij
      | succ k => simp
    | succ i2 =>
      cases j with
      | zero => simp
      | succ k => simpa using ih i2 k (by omega)

lemma getD_eraseIdx_ge {α : Type} (l : List α) (i j : Nat) (d : α) (hij : i ≤ j) :
    (l.eraseIdx i).getD j d = l.getD (j + 1) d := by
  induction l generalizing i j with
  | nil => simp
  | cons b t ih =>
    cases i with
    | zero => simp
    | succ i2 =>
      cases j with
      | zero => omega
      | succ k => simpa using ih i2 k (by omega)

end ListLemmas

section Conservation

lemma splitNode_sum (s : MemoryManager) (i : Nat) (hole : Int) (n : Nat)
    (h : i < s.listNodes.length) :
    sumSizes (MemoryManager.splitNode s i hole n).listNodes = sumSizes s.listNodes := by
  unfold MemoryManager.splitNode
  have hins : i ≤ s.listNodes.length := le_of_lt h
  have hlen : (s.listNodes.insertIdx i
      (listNode.make (s.listNodes.getD i dNode).headIndex (n : Int) false)).length
      = s.listNodes.length + 1 :=
    List.length_insertIdx _ _ hins
  rw [sumSizes_set _ _ _ (by omega), sumSizes_insertIdx _ _ _ hins]
  simp [listNode.make]

lemma mergeRightPhase_sum (s s2 : MemoryManager) (pos : Nat)
    (h : MemoryManager.mergeRightPhase s pos = some s2) :
    sumSizes s2.listNodes = sumSizes s.listNodes := by
  unfold MemoryManager.mergeRightPhase at h
  split_ifs at h with h1 h2 h3
  · -- right neighbour is a hole: one merge
    injection h with h
    subst h
    rw [sumSizes_eraseIdx _ _ (by simpa using h2), sumSizes_set _ _ _ h1,
        getD_set_ne _ _ _ _ _ (by omega)]
    dsimp only
    ring
  · injection h with h
    subst h
    rfl
  · injection h with h
    subst h
    rfl

lemma mergeHoles_sum (s s2 : MemoryManager) (pos : Nat)
    (h : MemoryManager.mergeHoles s pos = some s2) :
    sumSizes s2.listNodes = sumSizes s.listNodes := by
  unfold MemoryManager.mergeHoles at h
  split_ifs at h with h1 h2 h3 h4
  · -- left neighbour is a hole: absorbed into it
    injection h with h
    subst h
    rw [sumSizes_eraseIdx _ _ (by simpa using h4), sumSizes_set _ _ _ (by omega),
        getD_set_ne _ _ _ _ _ (by omega)]
    dsimp only
    ring
  · exact mergeRightPhase_sum _ _ _ h
  · exact mergeRightPhase_sum _ _ _ h

lemma allocate_sum (alg : Int → List (Nat × Nat) → Option Int) (s : MemoryManager)
    (n : Nat) (r : PtrResult) (s2 : MemoryManager)
    (h : MemoryManager.allocate alg s n = some (r, s2)) :
    sumSizes s2.listNodes = sumSizes s.listNodes := by
  unfold MemoryManager.allocate at h
  cases halg : alg (n : Int) (MemoryManager.getList s) with
  | none =>
    simp only [halg] at h
    split_ifs at h
  | some availableHole =>
    simp only [halg] at h
    split_ifs at h with h1 h2 h3 h4
    · -- no fit or untracked offset: the null pointer, state unchanged
      simp only [Option.some.injEq, Prod.mk.injEq] at h
      rw [← h.2]
    · -- size mismatch: the node is split
      simp only [Option.some.injEq, Prod.mk.injEq] at h
      rw [← h.2]
      exact splitNode_sum s _ _ n h3.2
    · -- exact fit: the node is converted wholesale
      simp only [Option.some.injEq, Prod.mk.injEq] at h
      rw [← h.2]
      rw [sumSizes_set _ _ _ h3.2]
      dsimp only
      ring

lemma free_sum (s : MemoryManager) (o : Int) (s2 : MemoryManager)
    (h : MemoryManager.free s o = some s2) :
    sumSizes s2.listNodes = sumSizes s.listNodes := by
  unfold MemoryManager.free at h
  split_ifs at h with h1 h2
  · injection h with h
    subst h
    rfl
  · rw [mergeHoles_sum _ _ _ h]
    rw [sumSizes_set _ _ _ h2.2]
    dsimp only
    ring

lemma run_sum (alg : Int → List (Nat × Nat) → Option Int) :
    ∀ (ops : List Op) (s s2 : MemoryManager),
    (∀ op ∈ ops, validAllocFree op = true) →
    run alg s ops = some s2 → sumSizes s2.listNodes = sumSizes s.listNodes := by
  intro ops
  induction ops with
  | nil =>
    intro s s2 _ h
    injection h with h
    rw [h]
  | cons op rest ih =>
    intro s s2 hv h
    unfold run at h
    cases hop : step alg s op with
    | none => rw [hop] at h; cases h
    | some s1 =>
      rw [hop] at h
      have hsum1 : sumSizes s1.listNodes = sumSizes s.listNodes := by
        have hvop : validAllocFree op = true := hv op (List.mem_cons_self op rest)
        cases op with
        | init m => simp [validAllocFree] at hvop
        | shutdown => simp [validAllocFree] at hvop
        | alloc m =>
          simp only [step, Option.map_eq_some'] at hop
          obtain ⟨⟨r, s1x⟩, halloc, hsnd⟩ := hop
          cases hsnd
          exact allocate_sum alg s m r _ halloc
        | free o =>
          exact free_sum s o s1 hop
      rw [ih s1 s2 (fun op2 hm => hv op2 (List.mem_cons_of_mem _ hm)) h, hsum1]

end Conservation

section BestFitLemmas

lemma bestFitGo_cons (n : Int) (p : Nat × Nat) (rest : List (Nat × Nat)) (off mx : Int) :
    bestFitGo n (p :: rest) off mx
      = if n ≤ (p.2 : Int) ∧ (p.2 : Int) < mx
        then bestFitGo n rest (p.1 : Int) (p.2 : Int)
        else bestFitGo n rest off mx := rfl

lemma bestFitGo_acc (n : Int) :
    ∀ (rest pre : List (Nat × Nat)) (off mx : Int),
    (∀ p ∈ rest, (p.2 : Int) < 65536) →
    FitAcc n pre off mx →
    ∃ mx2, FitAcc n (pre ++ rest) (bestFitGo n rest off mx) mx2 := by
  intro rest
  induction rest with
  | nil =>
    intro pre off mx _ hacc
    exact ⟨mx, by simpa using hacc⟩
  | cons p rest ih =>
    intro pre off mx hsz hacc
    have hp : (p.2 : Int) < 65536 := hsz p (List.mem_cons_self p rest)
    have hrest : ∀ q ∈ rest, (q.2 : Int) < 65536 :=
      fun q hq => hsz q (List.mem_cons_of_mem _ hq)
    rw [show pre ++ p :: rest = (pre ++ [p]) ++ rest by simp, bestFitGo_cons]
    by_cases hcond : n ≤ (p.2 : Int) ∧ (p.2 : Int) < mx
    · -- p becomes the new running best
      rw [if_pos hcond]
      refine ih (pre ++ [p]) _ _ hrest (Or.inr ⟨pre, p, [], rfl, rfl, rfl, hcond.1, hp, ?_, ?_⟩)
      · intro q hq hqn
        rcases List.mem_append.mp hq with hq1 | hq1
        · rcases hacc with ⟨_, hmx, hall⟩ | ⟨l₁, p0, l₂, hpre, hoff, hmx, hp0n, _, hmin, _⟩
          · exact absurd (hall q hq1) (not_lt.mpr hqn)
          · have hpp0 : (p.2 : Int) < (p0.2 : Int) := hmx ▸ hcond.2
            have hle : (p0.2 : Int) ≤ (q.2 : Int) := by
              exact_mod_cast hmin q (hpre ▸ hq1) hqn
            have hlt : (p.2 : Int) < (q.2 : Int) := lt_of_lt_of_le hpp0 hle
            exact le_of_lt (by exact_mod_cast hlt)
        · have hqp : q = p := by simpa using hq1
          rw [hqp]
      · intro q hq hqn
        rcases hacc with ⟨_, hmx, hall⟩ | ⟨l₁, p0, l₂, hpre, hoff, hmx, hp0n, _, hmin, _⟩
        · exact absurd (hall q hq) (not_lt.mpr hqn)
        · have hpp0 : (p.2 : Int) < (p0.2 : Int) := hmx ▸ hcond.2
          have hle : (p0.2 : Int) ≤ (q.2 : Int) := by
            exact_mod_cast hmin q (hpre ▸ hq) hqn
          have hlt : (p.2 : Int) < (q.2 : Int) := lt_of_lt_of_le hpp0 hle
          exact_mod_cast hlt
    · -- p does not displace the running best
      rw [if_neg hcond]
      refine ih (pre ++ [p]) _ _ hrest ?_
      rcases hacc with ⟨hoff, hmx, hall⟩ | ⟨l₁, p0, l₂, hpre, hoff, hmx, hp0n, hp0b, hmin, hstrict⟩
      · refine Or.inl ⟨hoff, hmx, ?_⟩
        intro q hq
        rcases List.mem_append.mp hq with hq1 | hq1
        · exact hall q hq1
        · have hqp : q = p := by simpa using hq1
          have hnp : ¬ n ≤ (p.2 : Int) := fun hn => hcond ⟨hn, hmx ▸ hp⟩
          rw [hqp]
          exact lt_of_not_le hnp
      · refine Or.inr ⟨l₁, p0, l₂ ++ [p], by rw [hpre]; simp, hoff, hmx, hp0n, hp0b, ?_, hstrict⟩
        intro q hq hqn
        rcases List.mem_append.mp hq with hq1 | hq1
        · exact hmin q (hpre ▸ hq1) hqn
        · have hqp : q = p := by simpa using hq1
          rw [hqp] at hqn ⊢
          have hnlt : ¬ (p.2 : Int) < (p0.2 : Int) := fun hlt => hcond ⟨hqn, hmx ▸ hlt⟩
          exact_mod_cast not_lt.mp hnlt

lemma bestFit_acc (n : Int) (holes : List (Nat × Nat))
    (hsz : ∀ p ∈ holes, (p.2 : Int) < 65536) :
    ∃ mx2, FitAcc n holes (bestFitGo n holes (-1) 65536) mx2 := by
  have h := bestFitGo_acc n holes [] (-1) 65536 hsz
    (Or.inl ⟨rfl, rfl, by intro q hq; cases hq⟩)
  simpa using h

end BestFitLemmas

/-- C1: the claimed invariant — every block's offset is a key of the Address
Index mapping to the block's current position, re-synchronized after every
structural change including a left-neighbour absorption — is violated by the
code.  In a 6-word arena, after three 2-word allocations, freeing offset 0
and then offset 2 absorbs block 2 into its left neighbour; the left-merge
branch of `mergeHoles` erases only the freed key and shifts no later
position down, so the block at offset 4, now at position 1, is still mapped
to position 2. -/
theorem index_desync_after_left_merge :
    run bestFit (MemoryManager.new 1)
      [Op.init 6, Op.alloc 2, Op.alloc 2, Op.free 0, Op.free 2] =
      some ⟨[⟨4, 0, true⟩, ⟨2, 4, true⟩], [(0, 0), (4, 2)], 1, 6, 6⟩ ∧
    indexSynced ⟨[⟨4, 0, true⟩, ⟨2, 4, true⟩], [(0, 0), (4, 2)], 1, 6, 6⟩ = false ∧
    (([⟨4, 0, true⟩, ⟨2, 4, true⟩] : List listNode).getD 1 dNode).headIndex = 4 ∧
    mapFind [(0, 0), (4, 2)] 4 = some 2 := by
  refine ⟨by decide, by decide, by decide, by decide⟩

/-- C4: the right-neighbour check of `mergeHoles` is *not* safe.  Freeing
the only block of a fully allocated 1-word arena reaches `mergeHoles` at
position 0 of a one-element list: the C++ guard `listNodes.size() >
nodePosition` (1 > 0) passes, and the code then reads
`listNodes[nodePosition + 1] = listNodes[1]`, one past the end — the
execution is undefined, `none` in the model. -/
theorem mergeHoles_right_check_oob :
    run bestFit (MemoryManager.new 1) [Op.init 1, Op.alloc 1] =
      some ⟨[⟨1, 0, false⟩], [(0, 0)], 1, 1, 1⟩ ∧
    (⟨[⟨1, 0, true⟩], [(0, 0)], 1, 1, 1⟩ : MemoryManager).listNodes.length = 0 + 1 ∧
    MemoryManager.mergeHoles ⟨[⟨1, 0, true⟩], [(0, 0)], 1, 1, 1⟩ 0 = none ∧
    MemoryManager.free ⟨[⟨1, 0, false⟩], [(0, 0)], 1, 1, 1⟩ 0 = none ∧
    run bestFit (MemoryManager.new 1) [Op.init 1, Op.alloc 1, Op.free 0] = none := by
  refine ⟨by decide, by decide, by decide, by decide, by decide⟩

/-- C6: a zero-size allocation request does *not* return the null pointer.
On a freshly initialized 10-word arena, `allocate` with 0 words lets
`bestFit` accept the spanning hole (10 ≥ 0), splits off a zero-length
allocated block, and returns the store's base pointer (byte offset 0). -/
theorem allocate_zero_size_returns_pointer :
    MemoryManager.allocate bestFit (MemoryManager.init (MemoryManager.new 1) 10) 0 =
      some (PtrResult.ptr 0, ⟨[⟨0, 0, false⟩, ⟨10, 0, true⟩], [(0, 1)], 1, 10, 10⟩) ∧
    (PtrResult.ptr 0 ≠ PtrResult.null) ∧
    ([⟨0, 0, false⟩, ⟨10, 0, true⟩] : List listNode).length = 2 := by
  refine ⟨by decide, by decide, by decide⟩

/-- C8: re-initializing an object that was initialized and not shut down
does *not* discard the previous blocks.  `initialize` never clears
`listNodes` or the map, so after `initialize(5); initialize(3)` the Block
List holds the stale 5-word hole followed by the new 3-word hole instead of
exactly one hole of length 3. -/
theorem init_twice_keeps_old_blocks :
    MemoryManager.init (MemoryManager.init (MemoryManager.new 1) 5) 3 =
      ⟨[⟨5, 0, true⟩, ⟨3, 0, true⟩], [(0, 0)], 1, 3, 3⟩ ∧
    (MemoryManager.init (MemoryManager.init (MemoryManager.new 1) 5) 3).listNodes.length ≠ 1 := by
  refine ⟨by decide, by decide⟩

set_option maxRecDepth 8000 in
/-- C10: the first two bytes of `getBitmap` are not a 2-byte integer holding
the payload byte length; they hold the low and high nibbles of
`bitset<8>(sizeMap)`.  For a single 128-word hole the payload is 16 bytes,
but the header bytes are (0, 1) — 256 read little-endian, 1 read
big-endian, neither equal to 16. -/
theorem getBitmap_header_is_nibble_split :
    MemoryManager.getBitmap (MemoryManager.init (MemoryManager.new 1) 128) =
      0 :: 1 :: List.replicate 16 0 ∧
    (MemoryManager.getBitmap (MemoryManager.init (MemoryManager.new 1) 128)).length = 2 + 16 ∧
    (128 + 8 - 1) / 8 = 16 ∧
    (0 + 256 * 1 ≠ 16) ∧ (256 * 0 + 1 ≠ 16) := by
  refine ⟨by decide, by decide, by decide, by decide, by decide⟩

/-- C3: one merge per `free` call, left first.  For a valid position in the
Block List: (a) if a left neighbour exists and is a hole, the freed block is
absorbed into it — the left block's length grows by the freed block's
length, the freed block is removed, and nothing else happens, so a hole
right neighbour survives untouched at the freed block's old position (two
holes remain); (b) only when the left neighbour is absent or not a hole is
the right neighbour examined, and if it is a hole it is absorbed into the
freed block; (c) with neither neighbour a hole the state is unchanged.
(`free` marks the node at `pos` a hole and then calls exactly this
function.) -/
theorem mergeHoles_single_direction (s : MemoryManager) (pos : Nat)
    (hpos : pos < s.listNodes.length) :
    (0 < pos → (s.listNodes.getD (pos - 1) dNode).isHole = true →
      (MemoryManager.mergeHoles s pos = some { s with
          indexToNodeMap := mapErase s.indexToNodeMap (s.listNodes.getD pos dNode).headIndex
          listNodes := (s.listNodes.set (pos - 1)
            { s.listNodes.getD (pos - 1) dNode with
                size := (s.listNodes.getD (pos - 1) dNode).size
                  + (s.listNodes.getD pos dNode).size }).eraseIdx pos } ∧
        (pos + 1 < s.listNodes.length →
          ((s.listNodes.set (pos - 1)
            { s.listNodes.getD (pos - 1) dNode with
                size := (s.listNodes.getD (pos - 1) dNode).size
                  + (s.listNodes.getD pos dNode).size }).eraseIdx pos).getD pos dNode
            = s.listNodes.getD (pos + 1) dNode))) ∧
    ((0 < pos → (s.listNodes.getD (pos - 1) dNode).isHole = false) →
      pos + 1 < s.listNodes.length →
      (s.listNodes.getD (pos + 1) dNode).isHole = true →
      MemoryManager.mergeHoles s pos = some { s with
        indexToNodeMap := mapErase
          (mapAddFrom s.indexToNodeMap ((s.listNodes.getD (pos + 1) dNode).headIndex) (-1))
          ((s.listNodes.getD (pos + 1) dNode).headIndex)
        listNodes := (s.listNodes.set pos
          { s.listNodes.getD pos dNode with
              size := (s.listNodes.getD pos dNode).size
                + (s.listNodes.getD (pos + 1) dNode).size }).eraseIdx (pos + 1) }) ∧
    ((0 < pos → (s.listNodes.getD (pos - 1) dNode).isHole = false) →
      pos + 1 < s.listNodes.length →
      (s.listNodes.getD (pos + 1) dNode).isHole = false →
      MemoryManager.mergeHoles s pos = some s) := by
  have hrightPhase : ∀ hside : (0 < pos → (s.listNodes.getD (pos - 1) dNode).isHole = false),
      MemoryManager.mergeHoles s pos = MemoryManager.mergeRightPhase s pos := by
    intro hside
    unfold MemoryManager.mergeHoles
    rcases Nat.eq_zero_or_pos pos with h0 | h0
    · rw [if_neg (by omega)]
    · rw [if_pos h0, if_pos (by omega : pos - 1 < s.listNodes.length),
          if_neg (by rw [hside h0]; exact Bool.false_ne_true)]
  refine ⟨?_, ?_, ?_⟩
  · intro h0 hl
    constructor
    · unfold MemoryManager.mergeHoles
      rw [if_pos h0, if_pos (by omega : pos - 1 < s.listNodes.length), if_pos hl, if_pos hpos]
    · intro hnext
      rw [getD_eraseIdx_ge _ _ _ _ (le_refl pos), getD_set_ne _ _ _ _ _ (by omega)]
  · intro hside hnext hr
    rw [hrightPhase hside]
    unfold MemoryManager.mergeRightPhase
    rw [if_pos hpos, if_pos hnext, if_pos hr]
  · intro hside hnext hr
    rw [hrightPhase hside]
    unfold MemoryManager.mergeRightPhase
    rw [if_pos hpos, if_pos hnext, if_neg (by rw [hr]; exact Bool.false_ne_true)]

/-- Witness for C3: the reachable state of a 6-word arena in which all three
blocks are holes; merging at position 1 absorbs the middle into the left,
and the right hole survives at position 1 — two adjacent holes remain. -/
theorem mergeHoles_single_direction_witness :
    (1 < ([⟨2, 0, true⟩, ⟨2, 2, true⟩, ⟨2, 4, true⟩] : List listNode).length) ∧
    MemoryManager.mergeHoles
        ⟨[⟨2, 0, true⟩, ⟨2, 2, true⟩, ⟨2, 4, true⟩], [(0, 0), (2, 1), (4, 2)], 1, 6, 6⟩ 1 =
      some ⟨[⟨4, 0, true⟩, ⟨2, 4, true⟩], [(0, 0), (4, 2)], 1, 6, 6⟩ ∧
    ([⟨4, 0, true⟩, ⟨2, 4, true⟩] : List listNode).getD 1 dNode = ⟨2, 4, true⟩ := by
  have h := (mergeHoles_single_direction
    ⟨[⟨2, 0, true⟩, ⟨2, 2, true⟩, ⟨2, 4, true⟩], [(0, 0), (2, 1), (4, 2)], 1, 6, 6⟩ 1
    (by decide)).1 (by decide) (by decide)
  exact ⟨by decide, h.1.trans (by decide), by decide⟩

/-- C2: conservation.  After a successful `initialize(c)` with `c ≤ 65536`,
any sequence of `allocate`/`free` calls (requests within the 65536-word
scale, where the C++ integer arithmetic is exact) that completes without an
out-of-bounds access leaves the block lengths summing to exactly `c`: every
split inserts what it subtracts and every merge adds what it removes. -/
theorem alloc_free_conserves_capacity (alg : Int → List (Nat × Nat) → Option Int)
    (w c : Nat) (ops : List Op) (s2 : MemoryManager)
    (hc : c ≤ 65536)
    (hops : ∀ op ∈ ops, validAllocFree op = true)
    (hrun : run alg (MemoryManager.init (MemoryManager.new w) c) ops = some s2) :
    sumSizes s2.listNodes = (c : Int) := by
  rw [run_sum alg ops _ s2 hops hrun]
  simp [MemoryManager.init, MemoryManager.new, hc, sumSizes, listNode.make]

/-- Witness for C2: a 6-word arena, one allocation and one free; the final
block lengths sum to 6. -/
theorem alloc_free_conserves_capacity_witness :
    (6 : Nat) ≤ 65536 ∧
    (∀ op ∈ [Op.alloc 2, Op.free 0], validAllocFree op = true) ∧
    sumSizes ([⟨6, 0, true⟩] : List listNode) = (6 : Int) := by
  refine ⟨by decide, by decide, ?_⟩
  exact alloc_free_conserves_capacity bestFit 1 6 [Op.alloc 2, Op.free 0]
    ⟨[⟨6, 0, true⟩], [(0, 0)], 1, 6, 6⟩ (by decide) (by decide) (by decide)

/-- C5 counterexample: `bestFit` does *not* return on every 16-bit hole
inventory.  On a well-formed ascending-offset inventory of 32768 ten-word
holes — count and every value within 16 bits — every hole qualifies for an
8-word request, yet the scan never returns the smallest fit: the loop bound
`holeListLength * 2 = 65536` exceeds every value of the wrapping `uint16_t`
counter `i`, so the loop condition is always true and the loop never
terminates (`none`). -/
theorem bestFit_hangs_large_inventory :
    bestFit 8 ((List.range 32768).map (fun i => (i, 10))) = none ∧
    ((List.range 32768).map (fun i => ((i : Nat), (10 : Nat)))).length = 32768 ∧
    (∀ p ∈ (List.range 32768).map (fun i => ((i : Nat), (10 : Nat))),
      (p.2 : Int) < 65536 ∧ (8 : Int) ≤ (p.2 : Int)) := by
  refine ⟨?_, by simp, ?_⟩
  · unfold bestFit
    rw [if_neg (by simp)]
  · intro p hp
    simp only [List.mem_map] at hp
    obtain ⟨i, _, rfl⟩ := hp
    exact ⟨by norm_num, by norm_num⟩

/-- C5 amended: `bestFit` correctness on the terminating domain.  For a
request of `n ≥ 1` words over a well-formed inventory of fewer than 32768
holes whose lengths fit 16 bits (with 32768 or more holes the `uint16_t`
loop counter wraps below the bound `count * 2` and the scan never returns):
if no hole is long enough the result is `-1` (`NO_FIT`); otherwise the
result is the offset of a hole of minimal qualifying length that strictly
beats every earlier qualifying hole — the smallest fit, first one on ties.
On hole sizes `[10, 20, 5, 30]` and a request of 8 it picks the 10-word
hole (offset 0 here). -/
theorem bestFit_smallest_first (n : Int) (holes : List (Nat × Nat))
    (hn : 1 ≤ n) (hlen : holes.length < 32768)
    (hsz : ∀ p ∈ holes, (p.2 : Int) < 65536) :
    ((∀ q ∈ holes, (q.2 : Int) < n) → bestFit n holes = some (-1)) ∧
    ((∃ w ∈ holes, n ≤ (w.2 : Int)) →
      ∃ l₁ p l₂, holes = l₁ ++ p :: l₂ ∧ bestFit n holes = some (p.1 : Int) ∧
        n ≤ (p.2 : Int) ∧
        (∀ q ∈ holes, n ≤ (q.2 : Int) → p.2 ≤ q.2) ∧
        (∀ q ∈ l₁, n ≤ (q.2 : Int) → p.2 < q.2)) ∧
    bestFit 8 [(0, 10), (10, 20), (30, 5), (35, 30)] = some 0 := by
  have hterm : bestFit n holes = some (bestFitGo n holes (-1) 65536) := by
    unfold bestFit
    rw [if_pos (by omega)]
  obtain ⟨mx2, hacc⟩ := bestFit_acc n holes hsz
  refine ⟨?_, ?_, by decide⟩
  · intro hall
    rw [hterm]
    rcases hacc with ⟨hoff, _, _⟩ | ⟨l₁, p, l₂, hsplit, hoff, _, hpn, _, _, _⟩
    · rw [hoff]
    · have hp : p ∈ holes := hsplit ▸ List.mem_append.mpr (Or.inr (List.mem_cons_self _ _))
      exact absurd (hall p hp) (not_lt.mpr hpn)
  · rintro ⟨w, hw, hwn⟩
    rcases hacc with ⟨_, _, hall⟩ | ⟨l₁, p, l₂, hsplit, hoff, _, hpn, _, hmin, hstrict⟩
    · exact absurd (hall w hw) (not_lt.mpr hwn)
    · exact ⟨l₁, p, l₂, hsplit, by rw [hterm, hoff], hpn, hmin, hstrict⟩

/-- Witness for the amended C5: the spec's own example inventory. -/
theorem bestFit_smallest_first_witness :
    (1 : Int) ≤ 8 ∧
    ([(0, 10), (10, 20), (30, 5), (35, 30)] : List (Nat × Nat)).length < 32768 ∧
    (∀ p ∈ ([(0, 10), (10, 20), (30, 5), (35, 30)] : List (Nat × Nat)), (p.2 : Int) < 65536) ∧
    bestFit 8 [(0, 10), (10, 20), (30, 5), (35, 30)] = some 0 :=
  ⟨by decide, by decide, by decide,
    (bestFit_smallest_first 8 [(0, 10), (10, 20), (30, 5), (35, 30)]
      (by decide) (by decide) (by decide)).2.2⟩

/-- C7 counterexample: a double free is *not* a silent no-op.  In a 6-word
arena, after two 2-word allocations, `free(0)`, `free(2)` (which left-merges
and leaves the state `[hole 0..4, hole 4..6]`), a second `free(0)` of the
already-freed first pointer finds offset 0 still tracked, re-runs the merge,
absorbs the right hole, and changes the Block List (and the Address Index)
to a single 6-word hole. -/
theorem double_free_not_noop :
    run bestFit (MemoryManager.new 1)
      [Op.init 6, Op.alloc 2, Op.alloc 2, Op.free 0, Op.free 2, Op.free 0] =
      some ⟨[⟨6, 0, true⟩], [(0, 0)], 1, 6, 6⟩ ∧
    MemoryManager.free ⟨[⟨4, 0, true⟩, ⟨2, 4, true⟩], [(0, 0), (4, 2)], 1, 6, 6⟩ 0 =
      some ⟨[⟨6, 0, true⟩], [(0, 0)], 1, 6, 6⟩ ∧
    ([⟨6, 0, true⟩] : List listNode) ≠ [⟨4, 0, true⟩, ⟨2, 4, true⟩] ∧
    ([((0 : Int), (0 : Int))] : IndexMap) ≠ [(0, 0), (4, 2)] := by
  refine ⟨by decide, by decide, by decide, by decide⟩

/-- C7 amended: `free` is a silent no-op exactly when the pointer's word
offset is not a key of the Address Index — which covers every non-block-start
address and every address strictly inside a block — and the whole state
(Block List, Address Index, Backing Store) is returned unchanged.  An
offset that is still tracked (a hole's start, in particular a double free)
re-runs merging instead and may mutate the state. -/
theorem free_untracked_offset_noop (s : MemoryManager) (o : Int)
    (h : mapCount s.indexToNodeMap o = 0) :
    MemoryManager.free s o = some s := by
  unfold MemoryManager.free
  rw [if_pos h]

/-- Witness for the amended C7: freeing offset 5 of a fresh 6-word arena —
an address inside the spanning hole but not a block start — is a no-op. -/
theorem free_untracked_offset_noop_witness :
    mapCount ([(0, 0)] : IndexMap) 5 = 0 ∧
    MemoryManager.free ⟨[⟨6, 0, true⟩], [(0, 0)], 1, 6, 6⟩ 5 =
      some ⟨[⟨6, 0, true⟩], [(0, 0)], 1, 6, 6⟩ :=
  ⟨by decide,
    free_untracked_offset_noop ⟨[⟨6, 0, true⟩], [(0, 0)], 1, 6, 6⟩ 5 (by decide)⟩

/-- C9 counterexample: the returned pointer is *not* `base + offset ×
wordSize` bytes.  With `wordSize = 2`, allocating the hole at word offset 2
returns `memoryBlock.data() + 2` on a `uint64_t` vector — byte offset 16 —
whereas offset × wordSize is 4. -/
theorem allocate_pointer_ignores_wordSize :
    run bestFit (MemoryManager.new 2) [Op.init 10, Op.alloc 2] =
      some ⟨[⟨2, 0, false⟩, ⟨8, 2, true⟩], [(0, 0), (2, 1)], 2, 20, 20⟩ ∧
    MemoryManager.allocate bestFit
        ⟨[⟨2, 0, false⟩, ⟨8, 2, true⟩], [(0, 0), (2, 1)], 2, 20, 20⟩ 2 =
      some (PtrResult.ptr 16,
        ⟨[⟨2, 0, false⟩, ⟨2, 2, false⟩, ⟨6, 4, true⟩], [(0, 0), (2, 1), (4, 2)], 2, 20, 20⟩) ∧
    bestFit 2 (MemoryManager.getList
        ⟨[⟨2, 0, false⟩, ⟨8, 2, true⟩], [(0, 0), (2, 1)], 2, 20, 20⟩) = some 2 ∧
    (⟨[⟨2, 0, false⟩, ⟨8, 2, true⟩], [(0, 0), (2, 1)], 2, 20, 20⟩ :
        MemoryManager).wordSize = 2 ∧
    (16 : Nat) ≠ 2 * 2 := by
  refine ⟨by decide, by decide, by decide, by decide, by decide⟩

/-- C9 amended: every successful `allocate` returns the pointer at byte
offset `8 × selectedOffset` from the store base — `sizeof(uint64_t)` bytes
per word slot, fixed by the `std::vector<uint64_t>` backing store and
independent of the configured word size.  It equals `offset × wordSize`
only when `wordSize = 8`. -/
theorem allocate_pointer_formula (alg : Int → List (Nat × Nat) → Option Int)
    (s : MemoryManager) (n b : Nat) (s2 : MemoryManager)
    (h : MemoryManager.allocate alg s n = some (PtrResult.ptr b, s2)) :
    (alg (n : Int) (MemoryManager.getList s)).map (fun hole => 8 * hole.toNat) = some b := by
  unfold MemoryManager.allocate at h
  cases halg : alg (n : Int) (MemoryManager.getList s) with
  | none =>
    simp only [halg] at h
    split_ifs at h
  | some availableHole =>
    simp only [halg] at h
    show some (8 * availableHole.toNat) = some b
    split_ifs at h with h1 h2 h3 h4
    · simp only [Option.some.injEq, Prod.mk.injEq] at h
      exact PtrResult.noConfusion h.1
    · simp only [Option.some.injEq, Prod.mk.injEq] at h
      injection h.1 with hb
      rw [hb]
    · simp only [Option.some.injEq, Prod.mk.injEq] at h
      injection h.1 with hb
      rw [hb]

/-- Witness for the amended C9: allocating the hole at word offset 2 of a
1-byte-word arena returns byte offset 16 = 8 × 2. -/
theorem allocate_pointer_formula_witness :
    MemoryManager.allocate bestFit
        ⟨[⟨2, 0, false⟩, ⟨4, 2, true⟩], [(0, 0), (2, 1)], 1, 6, 6⟩ 2 =
      some (PtrResult.ptr 16,
        ⟨[⟨2, 0, false⟩, ⟨2, 2, false⟩, ⟨2, 4, true⟩], [(0, 0), (2, 1), (4, 2)], 1, 6, 6⟩) ∧
    (bestFit 2 (MemoryManager.getList
        ⟨[⟨2, 0, false⟩, ⟨4, 2, true⟩], [(0, 0), (2, 1)], 1, 6, 6⟩)).map
      (fun hole => 8 * hole.toNat) = some 16 :=
  ⟨by decide,
    allocate_pointer_formula bestFit
      ⟨[⟨2, 0, false⟩, ⟨4, 2, true⟩], [(0, 0), (2, 1)], 1, 6, 6⟩ 2 16
      ⟨[⟨2, 0, false⟩, ⟨2, 2, false⟩, ⟨2, 4, true⟩], [(0, 0), (2, 1), (4, 2)], 1, 6, 6⟩
      (by decide)⟩
